import Mathlib

/-!
Verification of the expression/placeholder-construction engine of the
`vsco/domino` DynamoDB query-DSL (Go).  The definitions below are a shallow
embedding of `expression.go` and the expression-related parts of `domino.go`
(the latest revision in the repository, i.e. the variant whose `construct`
takes a `topLevel` flag).  Go strings are modelled as `List Char`; Go's
`map[string]interface{}` is modelled as an insertion-ordered association
list with overwrite-on-insert semantics; the `uint` placeholder counter is
modelled as `Nat` (no overflow occurs: the counter only ever grows by the
number of leaf arguments).  The `exprNames map[string]*string` channel of
`construct` is constantly `nil` in the source (conditions return `nil`,
groups and negations only merge/propagate their children's maps), so it is
omitted from the model.
-/

namespace Domino

/-- Go strings, modelled as lists of characters. -/
abbrev Str := List Char

/-- Convenience conversion from Lean string literals. -/
def lit (s : String) : Str := s.data

/-- The character class kept by the sanitizer: Go regexp `[^a-zA-Z_0-9]`
replaces everything outside `[a-zA-Z_0-9]`, so the kept characters are
lower/upper case letters, digits and the underscore. -/
def keepChar (ch : Char) : Bool :=
  (decide ('a' ≤ ch) && decide (ch ≤ 'z')) ||
  (decide ('A' ≤ ch) && decide (ch ≤ 'Z')) ||
  (decide ('0' ≤ ch) && decide (ch ≤ '9')) ||
  (ch == '_')

/-- One step of `nonalpha.ReplaceAllString(r, "_")`: characters outside
`[a-zA-Z_0-9]` are replaced by `'_'`. -/
def sanitizeChar (ch : Char) : Char := if keepChar ch then ch else '_'

/-- `nonalpha.ReplaceAllString(r, "_")` from `expression.go`. -/
def sanitize (s : Str) : Str := s.map sanitizeChar

/-- The decimal digit characters used when printing a number (Go `%v`). -/
def digitChar (n : Nat) : Char := Char.ofNat (48 + n)

/-- Fuel-driven core of decimal rendering of a natural number
(Go `fmt.Sprintf("%v", ...)` on an unsigned integer). -/
def natCharsCore : Nat → Nat → Str
  | 0, _ => []
  | fuel + 1, n =>
      if n < 10 then [digitChar n]
      else natCharsCore fuel (n / 10) ++ [digitChar (n % 10)]

/-- Decimal rendering of a natural number, as printed by Go's `%v` verb. -/
def natChars (n : Nat) : Str := natCharsCore (n + 1) n

/-- Decimal rendering of a Go `int` (`%v` verb): a minus sign followed by
the digits for negative values, plain digits otherwise. -/
def intChars (i : Int) : Str :=
  if i < 0 then '-' :: natChars i.natAbs else natChars i.natAbs

/-- The universe of Go `interface{}` argument values handled by the model:
unsigned and signed integers, strings, and the one-element slice
`[]interface{}\x7bv\x7d` that the list/set update builders wrap around a
value before storing it in the value map. -/
inductive Val where
  | nat : Nat → Val
  | int : Int → Val
  | str : Str → Val
  | wrap : Val → Val
  deriving DecidableEq

instance : Inhabited Val := ⟨.nat 0⟩

/-- Go `fmt`'s `%v` rendering of a value: integers in decimal, strings
verbatim, a one-element slice as `[` ++ element ++ `]`. -/
def render : Val → Str
  | .nat n => natChars n
  | .int i => intChars i
  | .str s => s
  | .wrap v => '[' :: render v ++ [']']

/-- `generatePlaceholder` from `expression.go`: format the value and the
counter as `<value>_<counter>`, sanitize, and prepend a colon. -/
def generatePlaceholder (a : Val) (counter : Nat) : Str :=
  ':' :: sanitize (render a ++ '_' :: natChars counter)

/-- Association-list model of `map[string]interface{}`. -/
abbrev ValueMap := List (Str × Val)

/-- The key list of a value map. -/
def vmKeys (m : ValueMap) : List Str := m.map Prod.fst

/-- Go map insert `m[k] = v`: overwrite an existing binding, otherwise
append a new one. -/
def vmInsert (m : ValueMap) (k : Str) (v : Val) : ValueMap :=
  if k ∈ vmKeys m then m.map (fun p => if p.1 = k then (k, v) else p)
  else m ++ [(k, v)]

/-- Go `for k, v := range m2 \x7b m1[k] = v \x7d`: insert every binding of
`m2` into `m1`. -/
def vmUnion (m1 m2 : ValueMap) : ValueMap :=
  m2.foldl (fun acc p => vmInsert acc p.1 p.2) m1

/-- `Condition` from `expression.go`: a deferred render closure over the
generated placeholder names, plus the raw argument values. -/
structure Condition where
  exprF : List Str → Str
  args : List Val

/-- The expression tree: condition leaves, AND/OR groups (child list and
combinator keyword, as in `ExpressionGroup`), and `negation`. -/
inductive Expression where
  | cond : Condition → Expression
  | group : List Expression → Str → Expression
  | neg : Expression → Expression

/-- `Or(c ...Expression)` constructor. -/
def Or (c : List Expression) : Expression := .group c (lit "OR")

/-- `And(c ...Expression)` constructor. -/
def And (c : List Expression) : Expression := .group c (lit "AND")

/-- `Not(c Expression)` constructor. -/
def Not (c : Expression) : Expression := .neg c

/-- The loop body of `Condition.construct`: for each argument generate a
placeholder from the current counter, record it positionally, bind it in
the value map, and advance the counter by one. -/
def condLoop : List Val → Nat → List Str → ValueMap → List Str × ValueMap × Nat
  | [], counter, a, m => (a, m, counter)
  | b :: rest, counter, a, m =>
      condLoop rest (counter + 1) (a ++ [generatePlaceholder b counter])
        (vmInsert m (generatePlaceholder b counter) b)

/-- `Condition.construct` from `expression.go` (the constantly-`nil`
name-placeholder channel is omitted): render the closure over the generated
placeholders and return the value map and the advanced counter. -/
def constructCondition (c : Condition) (counter : Nat) : Str × ValueMap × Nat :=
  let r := condLoop c.args counter [] []
  (c.exprF r.1, r.2.1, r.2.2)

mutual

/-- `construct` from `expression.go`, dispatching on the expression kind:
a `Condition` ignores the `topLevel` flag; an `ExpressionGroup` renders its
children left to right (combinator keyword between consecutive children),
merges their value maps, threads the counter, and parenthesizes exactly
when it is not top level and has more than one child; a `negation` renders
its inner expression with the same `topLevel` flag, prefixes `NOT `, and
parenthesizes when not top level. -/
def construct : Expression → Nat → Bool → Str × ValueMap × Nat
  | .cond c, counter, _ => constructCondition c counter
  | .group es op, counter, topLevel =>
      let r := groupLoop op es counter true [] []
      (if topLevel = false ∧ 1 < es.length then '(' :: r.1 ++ [')'] else r.1,
        r.2.1, r.2.2)
  | .neg e, counter, topLevel =>
      let r := construct e counter topLevel
      (if topLevel = false then '(' :: (lit "NOT " ++ r.1) ++ [')']
       else lit "NOT " ++ r.1, r.2.1, r.2.2)

/-- The loop of `ExpressionGroup.construct`: `first` tracks `i == 0` (the
combinator separator is emitted before every child but the first), `expr`
and `m` accumulate the rendered string and the merged value map, and the
counter is threaded through the children, which are always constructed with
`topLevel = false`. -/
def groupLoop : Str → List Expression → Nat → Bool → Str → ValueMap →
    Str × ValueMap × Nat
  | _, [], counter, _, expr, m => (expr, m, counter)
  | op, e :: rest, counter, first, expr, m =>
      let expr1 := if first then expr else expr ++ ' ' :: op ++ [' ']
      let r := construct e counter false
      groupLoop op rest r.2.2 false (expr1 ++ r.1) (vmUnion m r.2.1)

end

mutual

/-- The raw argument values of all condition leaves of an expression, in
construction (left to right) order. -/
def leafArgs : Expression → List Val
  | .cond c => c.args
  | .group es _ => leafArgsList es
  | .neg e => leafArgs e

/-- `leafArgs` over a child list. -/
def leafArgsList : List Expression → List Val
  | [] => []
  | e :: rest => leafArgs e ++ leafArgsList rest

end

/-- Specification-side value map: the i-th argument bound under the
placeholder generated from it at counter `c + i`. -/
def placeholdersFrom : List Val → Nat → ValueMap
  | [], _ => []
  | v :: vs, c => (generatePlaceholder v c, v) :: placeholdersFrom vs (c + 1)

/-- Specification-side placeholder names: one per argument, starting at `c`
and incrementing by one. -/
def phStrings : List Val → Nat → List Str
  | [], _ => []
  | v :: vs, c => generatePlaceholder v c :: phStrings vs (c + 1)

/-- Specification-side: the children's rendered strings, each child
constructed with `topLevel = false` and the counter threaded left to
right. -/
def childStrings : List Expression → Nat → List Str
  | [], _ => []
  | e :: rest, c => (construct e c false).1 :: childStrings rest ((construct e c false).2.2)

/-- Specification-side: join rendered child strings, the combinator keyword
surrounded by single spaces between consecutive children (`first` marks the
position before which no separator is emitted). -/
def joinWithOp (op : Str) : Bool → List Str → Str
  | _, [] => []
  | first, s :: rest => (if first then s else ' ' :: op ++ ' ' :: s) ++ joinWithOp op false rest

/-! ## Field descriptors and condition builders

The `DynamoField` methods of `expression.go` build `Condition` (or
`KeyCondition`, a refinement wrapper around `Condition` whose `construct`
is inherited unchanged, so it is modelled as `Condition` directly) values
whose render closures format the operator-specific syntax. -/

/-- A dynamo field descriptor; only the attribute name takes part in
expression construction. -/
structure DynamoField where
  name : Str

/-- `DynamoField.operation`: render `<name> <op> <placeholder0>`
(`fmt.Sprintf("%s %s %v", p.name, op, placeholders[0])`). -/
def DynamoField.operation (p : DynamoField) (op : Str) (a : Val) : Condition :=
  { exprF := fun placeholders => p.name ++ ' ' :: op ++ ' ' :: placeholders.headD []
    args := [a] }

/-- `Equals` key condition, operator `=`. -/
def DynamoField.Equals (p : DynamoField) (a : Val) : Condition :=
  p.operation (lit "=") a

/-- `NotEquals` key condition, operator `<>`. -/
def DynamoField.NotEquals (p : DynamoField) (a : Val) : Condition :=
  p.operation (lit "<>") a

/-- `LessThan` key condition, operator `<`. -/
def DynamoField.LessThan (p : DynamoField) (a : Val) : Condition :=
  p.operation (lit "<") a

/-- `LessThanOrEq` key condition, operator `<=`. -/
def DynamoField.LessThanOrEq (p : DynamoField) (a : Val) : Condition :=
  p.operation (lit "<=") a

/-- `GreaterThan` key condition, operator `>`. -/
def DynamoField.GreaterThan (p : DynamoField) (a : Val) : Condition :=
  p.operation (lit ">") a

/-- `GreaterThanOrEq` key condition, operator `>=`. -/
def DynamoField.GreaterThanOrEq (p : DynamoField) (a : Val) : Condition :=
  p.operation (lit ">=") a

/-- `BeginsWith` key condition: `begins_with(<name>,<placeholder0>)`. -/
def DynamoField.BeginsWith (p : DynamoField) (a : Val) : Condition :=
  { exprF := fun placeholders =>
      lit "begins_with(" ++ p.name ++ ',' :: placeholders.headD [] ++ [')']
    args := [a] }

/-- `Between` key condition:
`(<name> between <placeholder0> and <placeholder1>)`. -/
def DynamoField.Between (p : DynamoField) (a b : Val) : Condition :=
  { exprF := fun placeholders =>
      '(' :: p.name ++ lit " between " ++ placeholders.headD []
        ++ lit " and " ++ placeholders.getD 1 [] ++ [')']
    args := [a, b] }

/-- Go `strings.Join`: concatenate with the separator between consecutive
elements. -/
def joinList (sep : Str) : List Str → Str
  | [] => []
  | [s] => s
  | s :: rest => s ++ sep ++ joinList sep rest

/-- `In` condition: `(<name> in (<placeholders comma-joined>))`. -/
def DynamoField.In (p : DynamoField) (elems : List Val) : Condition :=
  { exprF := fun placeholders =>
      '(' :: p.name ++ lit " in (" ++ joinList (lit ",") placeholders ++ lit "))"
    args := elems }

/-- `Contains` condition: `contains(<name>,<placeholder0>)`. -/
def DynamoField.Contains (p : DynamoField) (a : Val) : Condition :=
  { exprF := fun placeholders =>
      lit "contains(" ++ p.name ++ ',' :: placeholders.headD [] ++ [')']
    args := [a] }

/-- `Size` condition: `size(<name>) <op><placeholder0>`. -/
def DynamoField.Size (p : DynamoField) (op : Str) (a : Val) : Condition :=
  { exprF := fun placeholders =>
      lit "size(" ++ p.name ++ lit ") " ++ op ++ placeholders.headD []
    args := [a] }

/-- `Exists` condition: `attribute_exists(<name>)`, no arguments. -/
def DynamoField.Exists (p : DynamoField) : Condition :=
  { exprF := fun _ => lit "attribute_exists(" ++ p.name ++ [')']
    args := [] }

/-- `NotExists` condition: `attribute_not_exists(<name>)`, no arguments. -/
def DynamoField.NotExists (p : DynamoField) : Condition :=
  { exprF := fun _ => lit "attribute_not_exists(" ++ p.name ++ [')']
    args := [] }

/-! ## Update expressions -/

/-- `UpdateExpression` from `expression.go`: an operator keyword and a
deferred render function from the counter to
(clause string, value map, next counter). -/
structure UpdateExpression where
  op : Str
  f : Nat → Str × ValueMap × Nat

/-- `DynamoField.SetField`: `<name> = <placeholder>` (or
`<name> = if_not_exists(<name>,<placeholder>)` when `onlyIfEmpty`), keyword
SET, the placeholder bound to the raw value, counter advanced by one. -/
def DynamoField.SetField (field : DynamoField) (a : Val) (onlyIfEmpty : Bool) :
    UpdateExpression :=
  { op := lit "SET"
    f := fun c =>
      let ph := generatePlaceholder a c
      let r := if onlyIfEmpty
               then lit "if_not_exists(" ++ field.name ++ ',' :: ph ++ [')']
               else ph
      (field.name ++ lit " = " ++ r, [(ph, a)], c + 1) }

/-- `DynamoField.RemoveField`: a bare `<name>` under keyword REMOVE; no
placeholder, `nil` value map, yet the counter is advanced by one. -/
def DynamoField.RemoveField (field : DynamoField) : UpdateExpression :=
  { op := lit "REMOVE", f := fun c => (field.name, [], c + 1) }

/-- A dynamo list field (`dynamoListField` embeds `dynamoField`). -/
structure dynamoListField where
  name : Str

/-- `dynamoListField.Append`:
`<name> = list_append(<placeholder>,<name>)` under SET, the placeholder
bound to the one-element slice wrapping the value. -/
def dynamoListField.Append (field : dynamoListField) (a : Val) : UpdateExpression :=
  { op := lit "SET"
    f := fun c =>
      let ph := generatePlaceholder a c
      (field.name ++ lit " = list_append(" ++ ph ++ ',' :: field.name ++ [')'],
        [(ph, Val.wrap a)], c + 1) }

/-- `dynamoListField.Set`: `<name>[<index>] = <placeholder>` under SET, the
placeholder bound to the one-element slice wrapping the value. -/
def dynamoListField.Set (field : dynamoListField) (index : Int) (a : Val) :
    UpdateExpression :=
  { op := lit "SET"
    f := fun c =>
      let ph := generatePlaceholder a c
      (field.name ++ '[' :: intChars index ++ lit "] = " ++ ph,
        [(ph, Val.wrap a)], c + 1) }

/-- `dynamoListField.Remove`: `<name>[<index>]` under REMOVE; no
placeholder, `nil` value map, counter returned unchanged. -/
def dynamoListField.Remove (field : dynamoListField) (index : Int) : UpdateExpression :=
  { op := lit "REMOVE"
    f := fun c => (field.name ++ '[' :: intChars index ++ [']'], [], c) }

/-- A dynamo map field (`dynamoMapField` embeds `dynamoField`). -/
structure dynamoMapField where
  name : Str

/-- `dynamoMapField.Set`: `<name>.<key> = <placeholder>` under SET, the
placeholder generated from the key and bound to the value. -/
def dynamoMapField.Set (field : dynamoMapField) (key : Str) (a : Val) :
    UpdateExpression :=
  { op := lit "SET"
    f := fun c =>
      let ph := generatePlaceholder (Val.str key) c
      (field.name ++ '.' :: key ++ lit " = " ++ ph, [(ph, a)], c + 1) }

/-- `dynamoMapField.Remove`: `<name>.<key>` under REMOVE; no placeholder,
`nil` value map, yet the counter is advanced by one. -/
def dynamoMapField.Remove (field : dynamoMapField) (key : Str) : UpdateExpression :=
  { op := lit "REMOVE", f := fun c => (field.name ++ '.' :: key, [], c + 1) }

/-! ## `update.SetUpdateExpression` from `domino.go` -/

/-- Go map lookup `ms[op]` on the keyword map, with the zero-value `""` for
a missing key. -/
def msLookup (ms : List (Str × Str)) (op : Str) : Str :=
  match ms.find? (fun p => decide (p.1 = op)) with
  | some p => p.2
  | none => []

/-- Go map store `ms[op] = v` on the keyword map (first-insertion order). -/
def msStore : List (Str × Str) → Str → Str → List (Str × Str)
  | [], op, v => [(op, v)]
  | p :: t, op, v => if p.1 = op then (op, v) :: t else p :: msStore t op v

/-- One iteration of the clause loop on the keyword map:
`if ms[op] == "" \x7b ms[op] = s \x7d else \x7b ms[op] += ", " + s \x7d`. -/
def msAdd (ms : List (Str × Str)) (op s : Str) : List (Str × Str) :=
  if msLookup ms op = [] then msStore ms op s
  else msStore ms op (msLookup ms op ++ lit ", " ++ s)

/-- The clause loop of `update.SetUpdateExpression`: run each clause's
render function at the threaded counter, merge its value map, and add its
string to the keyword bucket map. -/
def updateLoop : List UpdateExpression → Nat → ValueMap → List (Str × Str) →
    ValueMap × List (Str × Str) × Nat
  | [], c, m, ms => (m, ms, c)
  | e :: rest, c, m, ms =>
      let r := e.f c
      updateLoop rest r.2.2 (vmUnion m r.2.1) (msAdd ms e.op r.1)

/-- The final string loop
`for k, v := range ms \x7b s += k + " " + v + " " \x7d`, iterated in
first-insertion order (Go's map iteration order is arbitrary; no other
order-dependent observation is made of this map). -/
def renderKeywordGroups : List (Str × Str) → Str
  | [] => []
  | (k, v) :: rest => k ++ ' ' :: v ++ ' ' :: renderKeywordGroups rest

/-- `update.SetUpdateExpression` from `domino.go`: run the clauses with a
shared counter seeded at 100, bucket the clause strings by operator
keyword, join the buckets into the final update-expression string, and
return the merged attribute-value map. -/
def SetUpdateExpression (exprs : List UpdateExpression) : Str × ValueMap :=
  let r := updateLoop exprs 100 [] []
  (renderKeywordGroups r.2.1, r.1)

/-! ## `DynamoTable.Query` and `query.SetFilterExpression` from `domino.go` -/

/-- The key-condition expression built by `DynamoTable.Query`:
`And(partitionKeyCondition, *rangeKeyCondition)` when a range-key condition
is supplied, else the partition-key condition alone. -/
def queryKeyConditionExpression (partitionKeyCondition : Condition)
    (rangeKeyCondition : Option Condition) : Expression :=
  match rangeKeyCondition with
  | some r => And [.cond partitionKeyCondition, .cond r]
  | none => .cond partitionKeyCondition

/-- The key-condition placeholder map merged into the query's
attribute-value map: the key-condition expression is constructed with
counter 0 and `topLevel = true`. -/
def queryKeyConditionValues (p : Condition) (r : Option Condition) : ValueMap :=
  (construct (queryKeyConditionExpression p r) 0 true).2.1

/-- The filter-expression placeholder map of `query.SetFilterExpression`
(also `update/put.SetConditionExpression`): the tree is constructed with
counter 1 and `topLevel = true`, and its map is merged into the same
request's attribute-value map. -/
def filterExpressionValues (e : Expression) : ValueMap :=
  (construct e 1 true).2.1

/-! ## Specification-side descriptions of `SetUpdateExpression` -/

/-- The clauses rendered at their threaded counters:
(keyword, clause string, clause value map) per clause. -/
def threadClauses : List UpdateExpression → Nat → List (Str × Str × ValueMap)
  | [], _ => []
  | e :: rest, c => (e.op, (e.f c).1, (e.f c).2.1) :: threadClauses rest (e.f c).2.2

/-- The counter after threading through all clauses. -/
def threadFinal : List UpdateExpression → Nat → Nat
  | [], c => c
  | e :: rest, c => threadFinal rest (e.f c).2.2

/-- The threaded counter before each clause, and the final one. -/
def threadCounters : List UpdateExpression → Nat → List Nat
  | [], c => [c]
  | e :: rest, c => c :: threadCounters rest (e.f c).2.2

/-- First occurrence of each element, in order. -/
def dedupFirst : List Str → List Str
  | [] => []
  | x :: rest => x :: (dedupFirst rest).filter (fun y => decide (y ≠ x))

/-- The `", "`-join of the clause strings carrying keyword `k`. -/
def bucketStr (l : List (Str × Str × ValueMap)) (k : Str) : Str :=
  joinList (lit ", ") ((l.filter (fun t => decide (t.1 = k))).map (fun t => t.2.1))

/-- For each keyword in first-occurrence order, the `", "`-join of the
clause strings carrying that keyword. -/
def bucketJoin (l : List (Str × Str × ValueMap)) : List (Str × Str) :=
  (dedupFirst (l.map Prod.fst)).map (fun k => (k, bucketStr l k))

/-- Union of all clause value maps, in clause order. -/
def vmUnionAll (ms : List ValueMap) : ValueMap := ms.foldl vmUnion []

/-! ## Theorems -/

theorem natCharsCore_fuel : ∀ f1 f2 n, n < f1 → n < f2 →
    natCharsCore f1 n = natCharsCore f2 n := by
  intro f1
  induction f1 with
  | zero => omega
  | succ f ih =>
    intro f2 n h1 h2
    match f2 with
    | 0 => omega
    | f2 + 1 =>
      simp only [natCharsCore]
      by_cases h : n < 10
      · simp [h]
      · simp only [h, if_false]
        rw [ih f2 (n / 10) (by omega) (by omega)]

/-- Unfolding equation for `natChars` that recurses on `n / 10` directly. -/
theorem natChars_eq (n : Nat) :
    natChars n = if n < 10 then [digitChar n]
                 else natChars (n / 10) ++ [digitChar (n % 10)] := by
  unfold natChars
  by_cases h : n < 10
  · simp [natCharsCore, h]
  · simp only [natCharsCore, h, if_false]
    congr 1
    exact natCharsCore_fuel n (n / 10 + 1) (n / 10) (by omega) (by omega)

theorem natChars_ne_nil (n : Nat) : natChars n ≠ [] := by
  rw [natChars_eq]
  split <;> simp

theorem digitChar_inj (a b : Nat) (ha : a < 10) (hb : b < 10)
    (h : digitChar a = digitChar b) : a = b := by
  interval_cases a <;> interval_cases b <;> revert h <;> decide

/-- Every character of a decimal rendering is a digit character for a digit
value below ten. -/
theorem natChars_mem (n : Nat) : ∀ ch ∈ natChars n, ∃ d, d < 10 ∧ ch = digitChar d := by
  induction n using Nat.strong_induction_on with
  | _ n ih =>
    rw [natChars_eq]
    by_cases h : n < 10
    · simp only [h, if_true, List.mem_singleton]
      rintro ch rfl
      exact ⟨n, h, rfl⟩
    · simp only [h, if_false, List.mem_append, List.mem_singleton]
      rintro ch (hch | rfl)
      · exact ih (n / 10) (Nat.div_lt_self (by omega) (by omega)) ch hch
      · exact ⟨n % 10, by omega, rfl⟩

theorem digitChar_keep (d : Nat) (hd : d < 10) : keepChar (digitChar d) = true := by
  interval_cases d <;> decide

theorem digitChar_ne_underscore (d : Nat) (hd : d < 10) : digitChar d ≠ '_' := by
  interval_cases d <;> decide

theorem underscore_not_mem_natChars (n : Nat) : '_' ∉ natChars n := by
  intro h
  obtain ⟨d, hd, hch⟩ := natChars_mem n '_' h
  exact digitChar_ne_underscore d hd hch.symm

/-- Sanitization leaves a decimal rendering unchanged. -/
theorem sanitize_natChars (n : Nat) : sanitize (natChars n) = natChars n := by
  have h : (natChars n).map sanitizeChar = (natChars n).map id := by
    apply List.map_congr_left
    intro ch hch
    obtain ⟨d, hd, rfl⟩ := natChars_mem n ch hch
    simp [sanitizeChar, digitChar_keep d hd]
  simpa [sanitize] using h

/-- Decimal rendering is injective. -/
theorem natChars_inj (m : Nat) : ∀ n, natChars m = natChars n → m = n := by
  induction m using Nat.strong_induction_on with
  | _ m ih =>
    intro n h
    rw [natChars_eq m, natChars_eq n] at h
    by_cases hm : m < 10 <;> by_cases hn : n < 10
    · simp only [hm, hn, if_true, List.cons.injEq] at h
      exact digitChar_inj m n hm hn h.1
    · simp only [hm, hn, if_true, if_false] at h
      exfalso
      rw [show [digitChar m] = ([] : Str) ++ [digitChar m] from rfl] at h
      obtain ⟨h1, _⟩ := List.append_inj' h (by simp)
      exact natChars_ne_nil (n / 10) h1.symm
    · simp only [hm, hn, if_true, if_false] at h
      exfalso
      rw [show [digitChar n] = ([] : Str) ++ [digitChar n] from rfl] at h
      obtain ⟨h1, _⟩ := List.append_inj' h.symm (by simp)
      exact natChars_ne_nil (m / 10) h1.symm
    · simp only [hm, hn, if_false] at h
      obtain ⟨h1, h2⟩ := List.append_inj' h (by simp)
      have hdiv : m / 10 = n / 10 :=
        ih (m / 10) (Nat.div_lt_self (by omega) (by omega)) (n / 10) h1
      have hmod : m % 10 = n % 10 :=
        digitChar_inj _ _ (by omega) (by omega) (by simpa using h2)
      omega

/-- A value is never equal to its one-element slice wrapping. -/
theorem wrap_ne (a : Val) : Val.wrap a ≠ a := by
  induction a with
  | nat n => exact fun h => Val.noConfusion h
  | int i => exact fun h => Val.noConfusion h
  | str s => exact fun h => Val.noConfusion h
  | wrap b ih => exact fun h => ih (Val.wrap.inj h)

/-- The placeholder splits as colon, sanitized value, underscore, counter
digits (the separator underscore and the digits are fixed by sanitization). -/
theorem generatePlaceholder_decompose (a : Val) (counter : Nat) :
    generatePlaceholder a counter
      = ':' :: sanitize (render a) ++ '_' :: natChars counter := by
  unfold generatePlaceholder sanitize
  simp only [List.map_append, List.map_cons, List.cons_append]
  rw [show sanitizeChar '_' = '_' by decide,
    show List.map sanitizeChar (natChars counter) = natChars counter from
      sanitize_natChars counter]

/-- In a concatenation `s ++ '_' :: t` with `t` underscore-free, the suffix
after the last underscore is `t`; hence two such decompositions agree. -/
theorem underscore_suffix (r1 : Str) : ∀ (r2 t1 t2 : Str), '_' ∉ r1 → '_' ∉ r2 →
    r1 ++ '_' :: t1 = r2 ++ '_' :: t2 → r1 = r2 ∧ t1 = t2 := by
  induction r1 with
  | nil =>
    intro r2 t1 t2 _ h2 h
    cases r2 with
    | nil => simpa using h
    | cons b r2' =>
      simp only [List.nil_append, List.cons_append, List.cons.injEq] at h
      exact absurd (by simp [← h.1]) h2
  | cons a r1' ih =>
    intro r2 t1 t2 h1 h2 h
    cases r2 with
    | nil =>
      simp only [List.nil_append, List.cons_append, List.cons.injEq] at h
      exact absurd (by simp [h.1]) h1
    | cons b r2' =>
      simp only [List.cons_append, List.cons.injEq] at h
      obtain ⟨rfl, h'⟩ := h
      have hr1 : '_' ∉ r1' := fun hm => h1 (List.mem_cons_of_mem _ hm)
      have hr2 : '_' ∉ r2' := fun hm => h2 (List.mem_cons_of_mem _ hm)
      obtain ⟨hr, ht⟩ := ih r2' t1 t2 hr1 hr2 h'
      exact ⟨by rw [hr], ht⟩

/-- Equal placeholders can only come from equal counters: the counter is
recoverable as the digit string after the last underscore. -/
theorem generatePlaceholder_counter_eq (v1 v2 : Val) (c1 c2 : Nat)
    (h : generatePlaceholder v1 c1 = generatePlaceholder v2 c2) : c1 = c2 := by
  rw [generatePlaceholder_decompose, generatePlaceholder_decompose] at h
  have h' := congrArg List.reverse h
  simp only [List.reverse_append, List.reverse_cons, List.append_assoc,
    List.singleton_append, List.nil_append] at h'
  obtain ⟨hr, _⟩ := underscore_suffix ((natChars c1).reverse) ((natChars c2).reverse)
    ((sanitize (render v1)).reverse ++ [':'])
    ((sanitize (render v2)).reverse ++ [':'])
    (by simpa using underscore_not_mem_natChars c1)
    (by simpa using underscore_not_mem_natChars c2) h'
  exact natChars_inj c1 c2 (by simpa using congrArg List.reverse hr)

theorem vmInsert_fresh (m : ValueMap) (k : Str) (v : Val) (h : k ∉ vmKeys m) :
    vmInsert m k v = m ++ [(k, v)] := by
  simp [vmInsert, h]

theorem vmUnion_nil (m : ValueMap) : vmUnion m [] = m := rfl

/-- Merging a map whose keys are fresh for the accumulator and mutually
distinct is plain concatenation. -/
theorem vmUnion_disjoint (m2 : List (Str × Val)) : ∀ (m1 : ValueMap),
    (vmKeys m2).Nodup → (∀ k ∈ vmKeys m2, k ∉ vmKeys m1) →
    vmUnion m1 m2 = m1 ++ m2 := by
  induction m2 with
  | nil => intro m1 _ _; simp [vmUnion]
  | cons p t ih =>
    intro m1 hnd hdis
    simp only [vmKeys, List.map_cons, List.nodup_cons] at hnd
    have hfresh : p.1 ∉ vmKeys m1 := hdis p.1 (by simp [vmKeys])
    have step : vmUnion m1 (p :: t) = vmUnion (m1 ++ [p]) t := by
      simp [vmUnion, vmInsert_fresh m1 p.1 p.2 hfresh]
    rw [step, ih (m1 ++ [p]) hnd.2]
    · simp
    · intro k hk hmem
      simp only [vmKeys, List.map_append, List.mem_append, List.map_cons,
        List.map_nil, List.mem_singleton] at hmem
      rcases hmem with hm1 | rfl
      · exact hdis k
          (by simp only [vmKeys, List.map_cons]; exact List.mem_cons_of_mem _ hk) hm1
      · exact hnd.1 hk

theorem placeholdersFrom_length (vs : List Val) : ∀ c,
    (placeholdersFrom vs c).length = vs.length := by
  induction vs with
  | nil => intro c; rfl
  | cons v t ih => intro c; simp [placeholdersFrom, ih]

theorem placeholdersFrom_append (vs1 vs2 : List Val) : ∀ c,
    placeholdersFrom (vs1 ++ vs2) c
      = placeholdersFrom vs1 c ++ placeholdersFrom vs2 (c + vs1.length) := by
  induction vs1 with
  | nil => intro c; simp [placeholdersFrom]
  | cons v t ih =>
    intro c
    rw [show (v :: t) ++ vs2 = v :: (t ++ vs2) from rfl]
    simp only [placeholdersFrom, List.length_cons, List.cons_append]
    rw [ih (c + 1), show c + (t.length + 1) = c + 1 + t.length by omega]

theorem placeholdersFrom_keys (vs : List Val) : ∀ c, ∀ k ∈ vmKeys (placeholdersFrom vs c),
    ∃ v c', c ≤ c' ∧ c' < c + vs.length ∧ k = generatePlaceholder v c' := by
  induction vs with
  | nil => intro c k hk; simp [placeholdersFrom, vmKeys] at hk
  | cons v t ih =>
    intro c k hk
    simp only [placeholdersFrom, vmKeys, List.map_cons, List.mem_cons] at hk
    rcases hk with rfl | hk
    · exact ⟨v, c, Nat.le_refl c, by simp, rfl⟩
    · obtain ⟨v', c', h1, h2, h3⟩ := ih (c + 1) k hk
      exact ⟨v', c', by omega, by simp only [List.length_cons]; omega, h3⟩

theorem placeholdersFrom_keys_nodup (vs : List Val) : ∀ c,
    (vmKeys (placeholdersFrom vs c)).Nodup := by
  induction vs with
  | nil => intro c; simp [placeholdersFrom, vmKeys]
  | cons v t ih =>
    intro c
    simp only [placeholdersFrom, vmKeys, List.map_cons, List.nodup_cons]
    refine ⟨fun hmem => ?_, ih (c + 1)⟩
    obtain ⟨v', c', h1, _, h3⟩ := placeholdersFrom_keys t (c + 1) _ hmem
    have := generatePlaceholder_counter_eq v v' c c' h3
    omega

theorem vmKeys_placeholdersFrom (vs : List Val) : ∀ c,
    vmKeys (placeholdersFrom vs c) = phStrings vs c := by
  induction vs with
  | nil => intro c; rfl
  | cons v t ih => intro c; simp [placeholdersFrom, phStrings, vmKeys] at ih ⊢; exact ih (c + 1)

/-- The loop of `Condition.construct`, fully characterized: provided every
key already in the accumulator map was generated at a counter below `c`
(so that no overwrite can occur), the loop appends one placeholder per
argument, starting at `c` and incrementing by one, and binds each
placeholder to its argument. -/
theorem condLoop_spec (args : List Val) : ∀ (c : Nat) (a : List Str) (m : ValueMap),
    (∀ k ∈ vmKeys m, ∃ v c', c' < c ∧ k = generatePlaceholder v c') →
    condLoop args c a m
      = (a ++ phStrings args c, m ++ placeholdersFrom args c, c + args.length) := by
  induction args with
  | nil => intro c a m _; simp [condLoop, phStrings, placeholdersFrom]
  | cons b rest ih =>
    intro c a m hm
    have hfresh : generatePlaceholder b c ∉ vmKeys m := by
      intro hmem
      obtain ⟨v, c', hlt, he⟩ := hm _ hmem
      have := generatePlaceholder_counter_eq v b c' c he.symm
      omega
    have hins := vmInsert_fresh m (generatePlaceholder b c) b hfresh
    have hinv : ∀ k ∈ vmKeys (m ++ [(generatePlaceholder b c, b)]),
        ∃ v c', c' < c + 1 ∧ k = generatePlaceholder v c' := by
      intro k hk
      simp only [vmKeys, List.map_append, List.mem_append, List.map_cons,
        List.map_nil, List.mem_singleton] at hk
      rcases hk with hk | rfl
      · obtain ⟨v, c', hlt, he⟩ := hm k hk
        exact ⟨v, c', by omega, he⟩
      · exact ⟨b, c, by omega, rfl⟩
    simp only [condLoop, hins]
    rw [ih (c + 1) (a ++ [generatePlaceholder b c]) (m ++ [(generatePlaceholder b c, b)]) hinv]
    simp only [phStrings, placeholdersFrom, List.append_assoc, List.singleton_append,
      List.length_cons, Prod.mk.injEq]
    refine ⟨trivial, trivial, by omega⟩

/-- `Condition.construct` satisfies the leaf contract: `len(args)`
placeholders starting at the given counter and incrementing by one, a value
map binding each placeholder to its argument, and the counter advanced by
`len(args)`. -/
theorem constructCondition_spec (cd : Condition) (c : Nat) :
    constructCondition cd c
      = (cd.exprF (phStrings cd.args c), placeholdersFrom cd.args c,
          c + cd.args.length) := by
  simp only [constructCondition, condLoop_spec cd.args c [] [] (by simp [vmKeys]),
    List.nil_append]

mutual

/-- The value map produced by `construct` is exactly the leaf arguments
bound under placeholders numbered consecutively from the starting counter,
and the returned counter is the starting counter plus the number of leaf
arguments. -/
theorem construct_vm : ∀ (e : Expression) (c : Nat) (tl : Bool),
    (construct e c tl).2.1 = placeholdersFrom (leafArgs e) c ∧
    (construct e c tl).2.2 = c + (leafArgs e).length
  | .cond cd, c, tl => by
      simp [construct, constructCondition_spec, leafArgs]
  | .group es op, c, tl => by
      have h := groupLoop_vm op es c true [] [] (by simp [vmKeys])
      simp only [construct, leafArgs]
      exact ⟨by simpa using h.1, by simpa using h.2⟩
  | .neg e, c, tl => by
      have h := construct_vm e c tl
      simp only [construct, leafArgs]
      exact ⟨h.1, h.2⟩

/-- The loop of `ExpressionGroup.construct`, on the map/counter components:
provided the accumulated map's keys come from counters below `c`, the loop
appends each child's placeholder bindings in order and advances the counter
by the total number of leaf arguments. -/
theorem groupLoop_vm : ∀ (op : Str) (es : List Expression) (c : Nat) (first : Bool)
    (expr : Str) (m : ValueMap),
    (∀ k ∈ vmKeys m, ∃ v c', c' < c ∧ k = generatePlaceholder v c') →
    (groupLoop op es c first expr m).2.1 = m ++ placeholdersFrom (leafArgsList es) c ∧
    (groupLoop op es c first expr m).2.2 = c + (leafArgsList es).length
  | op, [], c, first, expr, m, _ => by
      simp [groupLoop, leafArgsList, placeholdersFrom]
  | op, e :: rest, c, first, expr, m, hm => by
      have hc := construct_vm e c false
      have hmerge : vmUnion m (construct e c false).2.1
          = m ++ placeholdersFrom (leafArgs e) c := by
        rw [hc.1]
        apply vmUnion_disjoint _ _ (placeholdersFrom_keys_nodup (leafArgs e) c)
        intro k hk hkm
        obtain ⟨v, c', h1, _, h3⟩ := placeholdersFrom_keys (leafArgs e) c k hk
        obtain ⟨v', c'', h4, h5⟩ := hm k hkm
        have := generatePlaceholder_counter_eq v v' c' c'' (h3 ▸ h5)
        omega
      have hinv : ∀ k ∈ vmKeys (m ++ placeholdersFrom (leafArgs e) c),
          ∃ v c', c' < c + (leafArgs e).length ∧ k = generatePlaceholder v c' := by
        intro k hk
        simp only [vmKeys, List.map_append, List.mem_append] at hk
        rcases hk with hk | hk
        · obtain ⟨v, c', h1, h2⟩ := hm k hk
          exact ⟨v, c', by omega, h2⟩
        · obtain ⟨v, c', h1, h2, h3⟩ := placeholdersFrom_keys (leafArgs e) c k hk
          exact ⟨v, c', h2, h3⟩
      have hrec := groupLoop_vm op rest (c + (leafArgs e).length) false
        ((if first then expr else expr ++ ' ' :: op ++ [' ']) ++ (construct e c false).1)
        (m ++ placeholdersFrom (leafArgs e) c) hinv
      simp only [groupLoop, hmerge, hc.2] at *
      refine ⟨?_, ?_⟩
      · rw [hrec.1, leafArgsList, placeholdersFrom_append, List.append_assoc]
      · rw [hrec.2, leafArgsList]
        simp only [List.length_append]
        omega

end

theorem groupLoop_str (op : Str) (es : List Expression) : ∀ (c : Nat) (first : Bool)
    (expr : Str) (m : ValueMap),
    (groupLoop op es c first expr m).1 = expr ++ joinWithOp op first (childStrings es c) := by
  induction es with
  | nil => intro c first expr m; simp [groupLoop, childStrings, joinWithOp]
  | cons e rest ih =>
    intro c first expr m
    simp only [groupLoop, childStrings, joinWithOp]
    rw [ih]
    cases first <;> simp [List.append_assoc]

/-! ## Lemmas on the keyword-bucketing of `SetUpdateExpression` -/

theorem dedupFirst_mem (x : Str) (l : List Str) : x ∈ dedupFirst l ↔ x ∈ l := by
  induction l with
  | nil => simp [dedupFirst]
  | cons a t ih =>
    simp only [dedupFirst, List.mem_cons, List.mem_filter, decide_eq_true_eq]
    constructor
    · rintro (rfl | ⟨hmem, _⟩)
      · exact .inl rfl
      · exact .inr (ih.mp hmem)
    · rintro (rfl | hmem)
      · exact .inl rfl
      · by_cases hxa : x = a
        · exact .inl hxa
        · exact .inr ⟨ih.mpr hmem, hxa⟩

theorem dedupFirst_nodup : ∀ l : List Str, (dedupFirst l).Nodup := by
  intro l
  induction l with
  | nil => simp [dedupFirst]
  | cons a t ih =>
    simp only [dedupFirst, List.nodup_cons]
    refine ⟨fun hmem => ?_, ih.filter _⟩
    have := (List.mem_filter.mp hmem).2
    simp at this

theorem dedupFirst_cons (a : Str) (t : List Str) :
    dedupFirst (a :: t) = a :: (dedupFirst t).filter (fun y => decide (y ≠ a)) := rfl

theorem dedupFirst_append_not_mem (x : Str) : ∀ (l : List Str), x ∉ l →
    dedupFirst (l ++ [x]) = dedupFirst l ++ [x] := by
  intro l
  induction l with
  | nil => intro _; rfl
  | cons a t ih =>
    intro hx
    have hxa : x ≠ a := fun he => hx (he ▸ List.mem_cons_self a t)
    have hxt : x ∉ t := fun hm => hx (List.mem_cons_of_mem a hm)
    rw [show (a :: t) ++ [x] = a :: (t ++ [x]) from rfl, dedupFirst_cons, dedupFirst_cons,
      ih hxt, List.filter_append]
    simp [hxa]

theorem dedupFirst_append_mem (x : Str) : ∀ (l : List Str), x ∈ l →
    dedupFirst (l ++ [x]) = dedupFirst l := by
  intro l
  induction l with
  | nil => intro h; simp at h
  | cons a t ih =>
    intro hx
    rw [show (a :: t) ++ [x] = a :: (t ++ [x]) from rfl, dedupFirst_cons, dedupFirst_cons]
    rcases List.mem_cons.mp hx with rfl | hxt
    · by_cases hmem : x ∈ t
      · rw [ih hmem]
      · rw [dedupFirst_append_not_mem x t hmem, List.filter_append]
        simp
    · rw [ih hxt]

theorem joinList_cons2 (sep s s2 : Str) (t : List Str) :
    joinList sep (s :: s2 :: t) = s ++ sep ++ joinList sep (s2 :: t) := rfl

theorem joinList_append_singleton (sep : Str) : ∀ (xs : List Str) (x : Str), xs ≠ [] →
    joinList sep (xs ++ [x]) = joinList sep xs ++ sep ++ x := by
  intro xs
  induction xs with
  | nil => intro x h; exact absurd rfl h
  | cons s t ih =>
    intro x _
    cases t with
    | nil => simp [joinList]
    | cons s2 t2 =>
      have h1 : (s :: s2 :: t2) ++ [x] = s :: ((s2 :: t2) ++ [x]) := rfl
      have h2 : (s2 :: t2) ++ [x] = s2 :: (t2 ++ [x]) := rfl
      rw [h1, h2, joinList_cons2, ← h2, ih x (by simp), joinList_cons2]
      simp [List.append_assoc]

theorem joinList_ne_nil (sep : Str) : ∀ (xs : List Str), xs ≠ [] →
    (∀ x ∈ xs, x ≠ []) → joinList sep xs ≠ [] := by
  intro xs
  match xs with
  | [] => intro h _; exact absurd rfl h
  | [s] => intro _ h; simpa [joinList] using h s (by simp)
  | s :: s2 :: t =>
    intro _ h hj
    apply h s (by simp)
    rw [joinList_cons2] at hj
    have := congrArg List.length hj
    simp only [List.length_append, List.length_nil] at this
    exact List.eq_nil_of_length_eq_zero (by omega)

theorem msLookup_cons (p : Str × Str) (t : List (Str × Str)) (k0 : Str) :
    msLookup (p :: t) k0 = if p.1 = k0 then p.2 else msLookup t k0 := by
  by_cases h : p.1 = k0
  · rw [msLookup, List.find?_cons_of_pos _ (by simp [h])]
    simp [h]
  · rw [msLookup, List.find?_cons_of_neg _ (by simp [h])]
    simp [h, msLookup]

theorem msLookup_map (g : Str → Str) (k0 : Str) : ∀ (D : List Str),
    msLookup (D.map (fun k => (k, g k))) k0 = if k0 ∈ D then g k0 else [] := by
  intro D
  induction D with
  | nil => simp [msLookup]
  | cons a t ih =>
    simp only [List.map_cons, msLookup_cons]
    by_cases h : a = k0
    · subst h
      simp
    · have h' : ¬ k0 = a := fun he => h he.symm
      simp [h, h', ih]

theorem msStore_fresh : ∀ (ms : List (Str × Str)) (k v : Str), k ∉ ms.map Prod.fst →
    msStore ms k v = ms ++ [(k, v)] := by
  intro ms
  induction ms with
  | nil => intro k v _; rfl
  | cons p t ih =>
    intro k v h
    simp only [List.map_cons, List.mem_cons] at h
    push_neg at h
    have hne : ¬ p.1 = k := fun he => h.1 he.symm
    simp only [msStore, if_neg hne]
    rw [ih k v h.2]
    simp

theorem msStore_map (g : Str → Str) (k0 v : Str) : ∀ (D : List Str), D.Nodup → k0 ∈ D →
    msStore (D.map (fun k => (k, g k))) k0 v
      = D.map (fun k => if k = k0 then (k, v) else (k, g k)) := by
  intro D
  induction D with
  | nil => intro _ h; simp at h
  | cons a t ih =>
    intro hnd hmem
    rcases List.nodup_cons.mp hnd with ⟨ha, hnd'⟩
    simp only [List.map_cons, msStore]
    by_cases h : a = k0
    · subst h
      simp only [eq_self_iff_true, if_true]
      congr 1
      apply List.map_congr_left
      intro b hb
      have hba : ¬ b = a := fun he => ha (he ▸ hb)
      simp [hba]
    · have h2 : k0 ∈ t := by
        rcases List.mem_cons.mp hmem with he | h2
        · exact absurd he.symm h
        · exact h2
      rw [if_neg h, ih hnd' h2]
      simp [h]

theorem bucketJoin_keys (l : List (Str × Str × ValueMap)) :
    (bucketJoin l).map Prod.fst = dedupFirst (l.map Prod.fst) := by
  have hid : (Prod.fst ∘ fun k => (k, bucketStr l k)) = id := by
    funext k
    rfl
  rw [bucketJoin, List.map_map, hid, List.map_id]

theorem bucketStr_append_ne (pre : List (Str × Str × ValueMap))
    (t : Str × Str × ValueMap) (k : Str) (hk : k ≠ t.1) :
    bucketStr (pre ++ [t]) k = bucketStr pre k := by
  have hd : (decide (t.1 = k)) = false := by
    simp only [decide_eq_false_iff_not]
    exact fun h => hk h.symm
  simp [bucketStr, List.filter_append, List.filter_cons, hd]

theorem bucketStr_append_self_mem (pre : List (Str × Str × ValueMap))
    (t : Str × Str × ValueMap) (hmem : t.1 ∈ pre.map Prod.fst) :
    bucketStr (pre ++ [t]) t.1 = bucketStr pre t.1 ++ lit ", " ++ t.2.1 := by
  simp only [bucketStr, List.filter_append, List.filter_cons, decide_True,
    List.filter_nil, if_true, List.map_append, List.map_cons, List.map_nil]
  apply joinList_append_singleton
  obtain ⟨u, hu, hu1⟩ := List.mem_map.mp hmem
  have hufil : u ∈ pre.filter (fun t' => decide (t'.1 = t.1)) :=
    List.mem_filter.mpr ⟨hu, by simp [hu1]⟩
  intro hmap
  rw [List.map_eq_nil_iff] at hmap
  rw [hmap] at hufil
  simp at hufil

theorem bucketStr_append_self_not_mem (pre : List (Str × Str × ValueMap))
    (t : Str × Str × ValueMap) (hmem : t.1 ∉ pre.map Prod.fst) :
    bucketStr (pre ++ [t]) t.1 = t.2.1 := by
  have hfil : pre.filter (fun t' => decide (t'.1 = t.1)) = [] := by
    rw [List.filter_eq_nil_iff]
    intro u hu
    simp only [decide_eq_true_eq]
    exact fun h => hmem (List.mem_map.mpr ⟨u, hu, h⟩)
  simp [bucketStr, List.filter_append, List.filter_cons, hfil, joinList]

theorem bucketStr_ne_nil (pre : List (Str × Str × ValueMap)) (k : Str)
    (hmem : k ∈ pre.map Prod.fst) (hpre : ∀ u ∈ pre, u.2.1 ≠ []) :
    bucketStr pre k ≠ [] := by
  obtain ⟨u, hu, hu1⟩ := List.mem_map.mp hmem
  have hufil : u ∈ pre.filter (fun t' => decide (t'.1 = k)) :=
    List.mem_filter.mpr ⟨hu, by simp [hu1]⟩
  apply joinList_ne_nil
  · exact fun h => by
      rw [List.map_eq_nil_iff] at h
      rw [h] at hufil
      simp at hufil
  · intro x hx
    obtain ⟨u', hu', rfl⟩ := List.mem_map.mp hx
    exact hpre u' (List.mem_of_mem_filter hu')

/-- One clause added to the keyword map is one clause added to the
specification-side buckets, provided all earlier clause strings are
nonempty (so that the Go zero-value test `ms[op] == ""` coincides with
key absence). -/
theorem msAdd_bucketJoin (pre : List (Str × Str × ValueMap))
    (t : Str × Str × ValueMap) (hpre : ∀ u ∈ pre, u.2.1 ≠ []) :
    msAdd (bucketJoin pre) t.1 t.2.1 = bucketJoin (pre ++ [t]) := by
  by_cases hmem : t.1 ∈ pre.map Prod.fst
  · have hdmem : t.1 ∈ dedupFirst (pre.map Prod.fst) := (dedupFirst_mem _ _).mpr hmem
    have hlk : msLookup (bucketJoin pre) t.1 = bucketStr pre t.1 := by
      rw [bucketJoin, msLookup_map]
      simp [hdmem]
    have hne := bucketStr_ne_nil pre t.1 hmem hpre
    simp only [msAdd, hlk, if_neg hne]
    rw [bucketJoin, msStore_map _ _ _ _ (dedupFirst_nodup _) hdmem, bucketJoin,
      show (pre ++ [t]).map Prod.fst = pre.map Prod.fst ++ [t.1] by simp,
      dedupFirst_append_mem _ _ hmem]
    apply List.map_congr_left
    intro k _
    by_cases hkt : k = t.1
    · subst hkt
      rw [if_pos rfl, bucketStr_append_self_mem pre t hmem]
    · rw [if_neg hkt, bucketStr_append_ne pre t k hkt]
  · have hdmem : t.1 ∉ dedupFirst (pre.map Prod.fst) :=
      fun h => hmem ((dedupFirst_mem _ _).mp h)
    have hlk : msLookup (bucketJoin pre) t.1 = [] := by
      rw [bucketJoin, msLookup_map]
      simp [hdmem]
    have hfresh : t.1 ∉ (bucketJoin pre).map Prod.fst := by
      rw [bucketJoin_keys]
      exact hdmem
    simp only [msAdd, hlk, eq_self_iff_true, if_true]
    rw [msStore_fresh _ _ _ hfresh, bucketJoin, bucketJoin,
      show (pre ++ [t]).map Prod.fst = pre.map Prod.fst ++ [t.1] by simp,
      dedupFirst_append_not_mem _ _ hmem, List.map_append]
    congr 1
    · apply List.map_congr_left
      intro k hk
      have hkt : k ≠ t.1 := fun he => hmem (he ▸ (dedupFirst_mem _ _).mp hk)
      rw [bucketStr_append_ne pre t k hkt]
    · simp [bucketStr_append_self_not_mem pre t hmem]

/-- Folding the clause loop's keyword-map step over a clause list with
nonempty rendered strings produces exactly the specification-side buckets. -/
theorem msFold_bucketJoin (l : List (Str × Str × ValueMap))
    (hne : ∀ t ∈ l, t.2.1 ≠ []) :
    l.foldl (fun acc t => msAdd acc t.1 t.2.1) [] = bucketJoin l := by
  suffices key : ∀ (suf pre : List (Str × Str × ValueMap)),
      (∀ u ∈ pre, u.2.1 ≠ []) → (∀ u ∈ suf, u.2.1 ≠ []) →
      suf.foldl (fun acc t => msAdd acc t.1 t.2.1) (bucketJoin pre)
        = bucketJoin (pre ++ suf) by
    have h := key l [] (by simp) hne
    simpa [bucketJoin, dedupFirst] using h
  intro suf
  induction suf with
  | nil => intro pre _ _; simp
  | cons t rest ih =>
    intro pre hpre hsuf
    simp only [List.foldl_cons]
    rw [msAdd_bucketJoin pre t hpre]
    have h2 : ∀ u ∈ pre ++ [t], u.2.1 ≠ [] := by
      intro u hu
      rcases List.mem_append.mp hu with hu | hu
      · exact hpre u hu
      · rw [List.mem_singleton.mp hu]
        exact hsuf t (List.mem_cons_self _ _)
    have h3 := ih (pre ++ [t]) h2 (fun u hu => hsuf u (List.mem_cons_of_mem _ hu))
    simpa [List.append_assoc] using h3

/-- `updateLoop` is the threaded-clause fold of its three components. -/
theorem updateLoop_spec (exprs : List UpdateExpression) : ∀ (c : Nat) (m : ValueMap)
    (ms : List (Str × Str)),
    updateLoop exprs c m ms
      = ((threadClauses exprs c).foldl (fun acc t => vmUnion acc t.2.2) m,
         (threadClauses exprs c).foldl (fun acc t => msAdd acc t.1 t.2.1) ms,
         threadFinal exprs c) := by
  induction exprs with
  | nil => intro c m ms; rfl
  | cons e rest ih =>
    intro c m ms
    simp only [updateLoop, threadClauses, threadFinal, List.foldl_cons]
    exact ih _ _ _

theorem threadCounters_head (exprs : List UpdateExpression) (c : Nat) :
    (threadCounters exprs c).head? = some c := by
  cases exprs <;> rfl

/-- The threaded counters are non-decreasing when no clause decreases the
counter. -/
theorem threadCounters_chain (exprs : List UpdateExpression) : ∀ (c : Nat),
    (∀ e ∈ exprs, ∀ c', c' ≤ (e.f c').2.2) →
    List.Chain' (· ≤ ·) (threadCounters exprs c) := by
  induction exprs with
  | nil => intro c _; simp [threadCounters]
  | cons e rest ih =>
    intro c h
    rw [threadCounters]
    apply List.chain'_cons'.mpr
    refine ⟨?_, ih _ (fun e' he' => h e' (List.mem_cons_of_mem _ he'))⟩
    intro b hb
    rw [threadCounters_head] at hb
    have hbe := Option.mem_some_iff.mp hb
    subst hbe
    exact h e (List.mem_cons_self _ _) c

/-! ## Claim theorems -/

/-- Claim C1: for every condition-expression tree with N total leaf
arguments and every starting counter, `construct` returns a value map whose
entries are exactly the leaf arguments bound, in order, under the
placeholders generated at counters c, c+1, ..., with pairwise-distinct
keys, exactly N entries, and a final counter equal to the starting counter
plus N; in particular a leaf `Condition` generates exactly `len(args)`
placeholders starting at its counter and incrementing by one, binds each
placeholder to its corresponding argument, and returns the counter advanced
by `len(args)`. -/
theorem claimC1 (e : Expression) (c : Nat) (tl : Bool) :
    (construct e c tl).2.1 = placeholdersFrom (leafArgs e) c
    ∧ (vmKeys (construct e c tl).2.1).Nodup
    ∧ (construct e c tl).2.1.length = (leafArgs e).length
    ∧ (construct e c tl).2.2 = c + (leafArgs e).length
    ∧ (∀ cd : Condition, construct (.cond cd) c tl
        = (cd.exprF (phStrings cd.args c), placeholdersFrom cd.args c,
            c + cd.args.length)) := by
  obtain ⟨h1, h2⟩ := construct_vm e c tl
  refine ⟨h1, ?_, ?_, h2, ?_⟩
  · rw [h1]
    exact placeholdersFrom_keys_nodup _ _
  · rw [h1]
    exact placeholdersFrom_length _ _
  · intro cd
    simp [construct, constructCondition_spec]

/-- Claim C3: an AND/OR `ExpressionGroup` is parenthesized by `construct`
exactly when it is not the top-level expression and has more than one
child; a single-child group renders as its child alone (never
self-parenthesized), and a top-level group is never self-parenthesized even
with multiple children. -/
theorem claimC3 (es : List Expression) (op : Str) (c : Nat) (tl : Bool) :
    ((construct (.group es op) c tl).1
      = if tl = false ∧ 1 < es.length
        then '(' :: joinWithOp op true (childStrings es c) ++ [')']
        else joinWithOp op true (childStrings es c))
    ∧ (∀ e : Expression, (construct (.group [e] op) c tl).1 = (construct e c false).1)
    ∧ (construct (.group es op) c true).1 = joinWithOp op true (childStrings es c) := by
  have key : ∀ (es' : List Expression) (tl' : Bool),
      (construct (.group es' op) c tl').1
        = if tl' = false ∧ 1 < es'.length
          then '(' :: joinWithOp op true (childStrings es' c) ++ [')']
          else joinWithOp op true (childStrings es' c) := by
    intro es' tl'
    simp only [construct]
    rw [groupLoop_str]
    simp
  refine ⟨key es tl, ?_, ?_⟩
  · intro e
    rw [key [e] tl]
    simp [joinWithOp, childStrings]
  · rw [key es true]
    simp

/-- Claim C4: placeholders generated at distinct counters are distinct for
all values, because the counter digits form the suffix after the last
underscore; the output has the shape colon, sanitized value (every
character outside [A-Za-z0-9_] replaced by an underscore), underscore,
counter digits. -/
theorem claimC4 (v1 v2 : Val) (c1 c2 : Nat) (h : c1 ≠ c2) :
    generatePlaceholder v1 c1 ≠ generatePlaceholder v2 c2
    ∧ generatePlaceholder v1 c1 = ':' :: sanitize (render v1) ++ '_' :: natChars c1 :=
  ⟨fun he => h (generatePlaceholder_counter_eq v1 v2 c1 c2 he),
    generatePlaceholder_decompose v1 c1⟩

/-- Claim C4 witness: equal values at counters 0 and 1 still give distinct
placeholders. -/
theorem claimC4_witness :
    generatePlaceholder (Val.str (lit "x")) 0 ≠ generatePlaceholder (Val.str (lit "x")) 1
    ∧ generatePlaceholder (Val.str (lit "x")) 0
        = ':' :: sanitize (render (Val.str (lit "x"))) ++ '_' :: natChars 0 :=
  claimC4 (Val.str (lit "x")) (Val.str (lit "x")) 0 1 (by decide)

/-- Claim C6: `Equals` on the field named "age" with argument 30,
constructed at counter 0 and topLevel true, returns exactly the string
"age = :30_0", the value map binding ":30_0" to 30, and final counter 1. -/
theorem claimC6 :
    construct (.cond (DynamoField.Equals ⟨lit "age"⟩ (Val.nat 30))) 0 true
      = (lit "age = :30_0", [(lit ":30_0", Val.nat 30)], 1) := by decide

/-- Claim C7: `negation.construct` invokes the inner expression's
`construct` with the same `topLevel` flag it received, prefixes `NOT `,
keeps the inner value map and counter, and parenthesizes the whole result
exactly when it is not at top level: `NOT <inner>` at top level,
`(NOT <inner>)` when nested. -/
theorem claimC7 (e : Expression) (c : Nat) (tl : Bool) :
    construct (.neg e) c tl
      = ((if tl = false then '(' :: (lit "NOT " ++ (construct e c tl).1) ++ [')']
          else lit "NOT " ++ (construct e c tl).1),
         (construct e c tl).2.1, (construct e c tl).2.2)
    ∧ (construct (.neg e) c true).1 = lit "NOT " ++ (construct e c true).1
    ∧ (construct (.neg e) c false).1
        = '(' :: (lit "NOT " ++ (construct e c false).1) ++ [')'] :=
  ⟨by simp [construct], by simp [construct], by simp [construct]⟩

/-- Claim C8: `construct` is deterministic — in this model it is a pure
function of the expression tree, starting counter and topLevel flag alone
(no state threading was needed to embed the source, whose only package
state is the immutable compiled regexp), so two invocations on equal inputs
return identical (string, value map, counter) triples. -/
theorem claimC8 (e1 e2 : Expression) (c1 c2 : Nat) (tl1 tl2 : Bool)
    (he : e1 = e2) (hc : c1 = c2) (htl : tl1 = tl2) :
    construct e1 c1 tl1 = construct e2 c2 tl2 := by
  subst he
  subst hc
  subst htl
  rfl

/-- Claim C8 witness: two invocations on the same concrete tree and counter
agree. -/
theorem claimC8_witness :
    construct (.cond (DynamoField.Equals ⟨lit "a"⟩ (Val.nat 7))) 5 true
      = construct (.cond (DynamoField.Equals ⟨lit "a"⟩ (Val.nat 7))) 5 true :=
  claimC8 (.cond (DynamoField.Equals ⟨lit "a"⟩ (Val.nat 7)))
    (.cond (DynamoField.Equals ⟨lit "a"⟩ (Val.nat 7))) 5 5 true true rfl rfl rfl

/-- Claim C9: a list field's `Set(index, value)` renders
`<name>[<index>] = <placeholder>` but binds the placeholder to the
one-element slice wrapping the value rather than the raw value, while
`SetField` binds the placeholder to the raw value; the wrapped value is
never equal to the raw one. -/
theorem claimC9 (field : dynamoListField) (index : Int) (a : Val) (c : Nat) :
    (field.Set index a).f c
      = (field.name ++ '[' :: intChars index ++ lit "] = " ++ generatePlaceholder a c,
          [(generatePlaceholder a c, Val.wrap a)], c + 1)
    ∧ (DynamoField.SetField ⟨field.name⟩ a false).f c
      = (field.name ++ lit " = " ++ generatePlaceholder a c,
          [(generatePlaceholder a c, a)], c + 1)
    ∧ Val.wrap a ≠ a :=
  ⟨rfl, rfl, wrap_ne a⟩

/-- Claim C10: counter advancement by placeholder-free update clauses is
inconsistent: `RemoveField` and a map field's `Remove(key)` advance the
returned counter by one despite an empty value map, while a list field's
`Remove(index)` returns the counter unchanged; hence the returned counter
does not in general equal the starting counter plus the number of
placeholders generated. -/
theorem claimC10 (field : DynamoField) (mf : dynamoMapField) (lf : dynamoListField)
    (key : Str) (index : Int) (c : Nat) :
    (field.RemoveField).f c = (field.name, [], c + 1)
    ∧ (mf.Remove key).f c = (mf.name ++ '.' :: key, [], c + 1)
    ∧ (lf.Remove index).f c = (lf.name ++ '[' :: intChars index ++ [']'], [], c)
    ∧ ((field.RemoveField).f c).2.2 ≠ c + ((field.RemoveField).f c).2.1.length := by
  refine ⟨rfl, rfl, rfl, ?_⟩
  simp only [DynamoField.RemoveField, List.length_nil]
  omega

/-- Claim C2 counterexample: with a partition condition `Equals("p","x")`,
a range condition `Equals("r","z")` and the filter `Contains("f","z")`, the
key-condition map (counters 0 and 1) and the filter map (counter 1) share
the placeholder key ":z_1", so the counter ranges are not disjoint and a
placeholder key of one tree equals a placeholder key of the other. -/
theorem claimC2_counterexample :
    lit ":z_1" ∈ vmKeys (queryKeyConditionValues
        (DynamoField.Equals ⟨lit "p"⟩ (Val.str (lit "x")))
        (some (DynamoField.Equals ⟨lit "r"⟩ (Val.str (lit "z")))))
    ∧ lit ":z_1" ∈ vmKeys (filterExpressionValues
        (.cond (DynamoField.Contains ⟨lit "f"⟩ (Val.str (lit "z"))))) := by
  exact ⟨by decide, by decide⟩

/-- Claim C2 (amended): the key-condition counter range starts at 0 and the
filter/condition-expression range at 1, so the two placeholder key sets are
disjoint exactly when the key-condition expression consumes at most one
leaf argument (e.g. a one-argument partition condition and no range
condition); with a range condition the ranges overlap at counter 1 and keys
can collide. -/
theorem claimC2_amended (p : Condition) (r : Option Condition) (fe : Expression)
    (h : (leafArgs (queryKeyConditionExpression p r)).length ≤ 1) :
    ∀ k ∈ vmKeys (queryKeyConditionValues p r),
      k ∉ vmKeys (filterExpressionValues fe) := by
  intro k hk hkf
  have h1 := (construct_vm (queryKeyConditionExpression p r) 0 true).1
  have h2 := (construct_vm fe 1 true).1
  rw [queryKeyConditionValues, h1] at hk
  obtain ⟨v, c', _, hc2, hke⟩ := placeholdersFrom_keys _ 0 k hk
  rw [filterExpressionValues, h2] at hkf
  obtain ⟨v2, c'', hc3, _, hke2⟩ := placeholdersFrom_keys _ 1 k hkf
  have := generatePlaceholder_counter_eq v v2 c' c'' (hke.symm.trans hke2)
  omega

/-- Claim C2 witness: a query with only a one-argument partition condition
has its single key placeholder ":x_0" absent from a filter's map. -/
theorem claimC2_amended_witness :
    lit ":x_0" ∉ vmKeys (filterExpressionValues
        (.cond (DynamoField.Contains ⟨lit "f"⟩ (Val.str (lit "x"))))) :=
  claimC2_amended (DynamoField.Equals ⟨lit "p"⟩ (Val.str (lit "x"))) none
    (.cond (DynamoField.Contains ⟨lit "f"⟩ (Val.str (lit "x"))))
    (by decide) (lit ":x_0") (by decide)

/-- Claim C5 counterexample: on the clause list
`[RemoveField(field named ""), RemoveField(field named "z")]` the produced
update-expression string is "REMOVE z " — the empty first clause string is
dropped because the Go guard `ms[op] == ""` cannot distinguish a missing
keyword from a stored empty clause — whereas joining the same-keyword
clause strings with ", " under a single keyword occurrence would give
"REMOVE , z ". -/
theorem claimC5_counterexample :
    (SetUpdateExpression [DynamoField.RemoveField ⟨[]⟩,
        DynamoField.RemoveField ⟨lit "z"⟩]).1
      ≠ renderKeywordGroups (bucketJoin (threadClauses
          [DynamoField.RemoveField ⟨[]⟩, DynamoField.RemoveField ⟨lit "z"⟩] 100)) := by
  decide

/-- Claim C5 (amended): provided every clause renders a nonempty string at
its threaded counter (as every clause over a field with a nonempty name
does), `SetUpdateExpression` joins clause strings sharing an operator
keyword with ", " under a single occurrence of that keyword, concatenates
the per-keyword groups separated by a space (in first-occurrence keyword
order, with a trailing space), unions every clause's value map into one
attribute-value map, and runs each clause's render function with a shared
counter threaded through the list; the threaded counters are non-decreasing
whenever no clause decreases the counter. -/
theorem claimC5_amended (exprs : List UpdateExpression)
    (hne : ∀ t ∈ threadClauses exprs 100, t.2.1 ≠ []) :
    (SetUpdateExpression exprs).1
        = renderKeywordGroups (bucketJoin (threadClauses exprs 100))
    ∧ (SetUpdateExpression exprs).2
        = vmUnionAll ((threadClauses exprs 100).map (fun t => t.2.2))
    ∧ (updateLoop exprs 100 [] []).2.2 = threadFinal exprs 100
    ∧ ((∀ e ∈ exprs, ∀ c', c' ≤ (e.f c').2.2) →
        List.Chain' (· ≤ ·) (threadCounters exprs 100)) := by
  have hu := updateLoop_spec exprs 100 [] []
  refine ⟨?_, ?_, ?_, threadCounters_chain exprs 100⟩
  · simp only [SetUpdateExpression, hu]
    rw [msFold_bucketJoin _ hne]
  · simp only [SetUpdateExpression, hu, vmUnionAll, List.foldl_map]
  · simp only [hu]

/-- Claim C5 witness: a SET clause and a REMOVE clause over nonempty field
names. -/
theorem claimC5_amended_witness :
    (SetUpdateExpression [DynamoField.SetField ⟨lit "x"⟩ (Val.nat 1) false,
        DynamoField.RemoveField ⟨lit "z"⟩]).1
      = renderKeywordGroups (bucketJoin (threadClauses
          [DynamoField.SetField ⟨lit "x"⟩ (Val.nat 1) false,
           DynamoField.RemoveField ⟨lit "z"⟩] 100)) :=
  (claimC5_amended [DynamoField.SetField ⟨lit "x"⟩ (Val.nat 1) false,
    DynamoField.RemoveField ⟨lit "z"⟩] (by decide)).1

end Domino
